import Mathlib

/-!
Verification of the DSDL serialization core of `pyuavcan` against its
natural-language specification.

The development shallowly embeds the two source modules that the claims
concern:

* `pyuavcan/dsdl/_serialized_representation/_deserializer.py` — the
  bit-stream `Deserializer`;
* `pyuavcan/dsdl/_composite_object.py` — the composite-object contract
  (`deserialize`, `ServiceObject`, `get_attribute`, `set_attribute`).

Bytes are modelled as `Nat` (well-formed buffers hold values `< 256`,
captured by `Deserializer.Wf`); the mutable cursor is explicit state;
Python exceptions are the constructors of `Fault`.  Methods that mutate
`self` and may raise are modelled either as `Except Fault (α × Deserializer)`
(result plus post-state on success) or, where the post-fault state matters,
as a `Except Fault α × Deserializer` pair whose second component is the
object after the call on every path.
-/

set_option autoImplicit false

namespace PyUAVCAN

/-- The exception kinds raised by the embedded code.  `formatError` is
`Deserializer.FormatError` (malformed input); `indexError` is Python's
`IndexError` (cursor overrun, a distinct out-of-range fault — the spec's
`Short` kind); `typeError` is Python's `TypeError` raised by `ServiceObject`
(the spec's `NotSerializable` kind); `valueError` is Python's `ValueError`;
`attributeError` is Python's `AttributeError` (the attribute-missing fault). -/
inductive Fault where
  | formatError
  | indexError
  | typeError
  | valueError
  | attributeError
  deriving DecidableEq

/-- The state of `Deserializer`: the source byte buffer (`self._buf`) and the
current bit cursor (`self._bit_offset`). -/
structure Deserializer where
  buf : List Nat
  bit_offset : Nat
  deriving DecidableEq

namespace Deserializer

/-- `self._buf_bit_length = len(self._buf) * 8`. -/
def buf_bit_length (d : Deserializer) : Nat := 8 * d.buf.length

/-- Property `consumed_bit_length`. -/
def consumed_bit_length (d : Deserializer) : Nat := d.bit_offset

/-- Property `remaining_bit_length = self._buf_bit_length - self._bit_offset`. -/
def remaining_bit_length (d : Deserializer) : Nat := d.buf_bit_length - d.bit_offset

/-- Property `_byte_offset = self._bit_offset // 8`. -/
def byte_offset (d : Deserializer) : Nat := d.bit_offset / 8

/-- Well-formedness of the buffer: every element is a byte value. -/
def Wf (d : Deserializer) : Prop := ∀ b ∈ d.buf, b < 256

/-- `require_remaining_bit_length`: raises `FormatError` when the remaining
bit length is strictly less than the requested inclusive minimum. -/
def require_remaining_bit_length (d : Deserializer) (inclusive_minimum : Nat) :
    Except Fault Unit :=
  if d.remaining_bit_length < inclusive_minimum then .error .formatError else .ok ()

/-- `skip_bits`: advances the cursor by `bit_length` when enough bits remain,
otherwise raises `IndexError`.  The second component is the object after the
call (unchanged when the fault is raised, mirroring that the Python method
checks before mutating `self._bit_offset`). -/
def skip_bits (d : Deserializer) (bit_length : Nat) :
    Except Fault Unit × Deserializer :=
  if d.remaining_bit_length ≥ bit_length then
    (.ok (), { d with bit_offset := d.bit_offset + bit_length })
  else
    (.error .indexError, d)

/-- MSB-first bits of one byte, as produced for each byte by
`numpy.unpackbits`. -/
def byteBits (b : Nat) : List Bool :=
  [b.testBit 7, b.testBit 6, b.testBit 5, b.testBit 4,
   b.testBit 3, b.testBit 2, b.testBit 1, b.testBit 0]

/-- `numpy.unpackbits`: MSB-first bit expansion of a byte sequence. -/
def unpackbits (bs : List Nat) : List Bool := (bs.map byteBits).flatten

/-- `fetch_aligned_bytes`: slices `count` bytes at the (byte-aligned) cursor;
`numpy` silently truncates the slice, so the explicit length check raises
`IndexError` on a short buffer; otherwise the cursor advances by `count * 8`. -/
def fetch_aligned_bytes (d : Deserializer) (count : Nat) :
    Except Fault (List Nat × Deserializer) :=
  let out := (d.buf.drop d.byte_offset).take count
  if out.length = count then
    .ok (out, { d with bit_offset := d.bit_offset + count * 8 })
  else
    .error .indexError

/-- `fetch_aligned_array_of_bits`: unpacks `(count + 7) / 8` bytes MSB-first,
truncates to `count` bits, raises `IndexError` when fewer are available, and
advances the cursor by `count`. -/
def fetch_aligned_array_of_bits (d : Deserializer) (count : Nat) :
    Except Fault (List Bool × Deserializer) :=
  let bs := (d.buf.drop d.byte_offset).take ((count + 7) / 8)
  let out := (unpackbits bs).take count
  if out.length = count then
    .ok (out, { d with bit_offset := d.bit_offset + count })
  else
    .error .indexError

/-- `fetch_aligned_u8`: one byte at the aligned cursor (raises `IndexError`
past the end, as the `numpy` element access would). -/
def fetch_aligned_u8 (d : Deserializer) : Except Fault (Nat × Deserializer) :=
  match d.buf[d.byte_offset]? with
  | none => .error .indexError
  | some b => .ok (b, { d with bit_offset := d.bit_offset + 8 })

/-- `fetch_aligned_u16 = u8 | u8 << 8`. -/
def fetch_aligned_u16 (d : Deserializer) : Except Fault (Nat × Deserializer) := do
  let (a, d1) ← d.fetch_aligned_u8
  let (b, d2) ← d1.fetch_aligned_u8
  return (a ||| b <<< 8, d2)

/-- `fetch_aligned_u32 = u16 | u16 << 16`. -/
def fetch_aligned_u32 (d : Deserializer) : Except Fault (Nat × Deserializer) := do
  let (a, d1) ← d.fetch_aligned_u16
  let (b, d2) ← d1.fetch_aligned_u16
  return (a ||| b <<< 16, d2)

/-- `fetch_aligned_u64 = u32 | u32 << 32`. -/
def fetch_aligned_u64 (d : Deserializer) : Except Fault (Nat × Deserializer) := do
  let (a, d1) ← d.fetch_aligned_u32
  let (b, d2) ← d1.fetch_aligned_u32
  return (a ||| b <<< 32, d2)

/-- The loop of `_unsigned_from_bytes`: after `i` iterations,
`out = x[0] | x[1] << 8 | ... | x[i-1] << 8*(i-1)`. -/
def unsignedLoop (x : List Nat) : Nat → Nat
  | 0 => 0
  | i + 1 => unsignedLoop x i ||| (x.getD i 0) <<< (i * 8)

/-- `_unsigned_from_bytes(x, bit_length)`: whole bytes little-endian, the
final byte shifted right by `(8 - bit_length % 8) & 0b111` to justify its
high bits.  (The Python asserts `bit_length >= 1` and `len(x) >= num_bytes`;
out-of-range accesses are rendered with default `0`, never reached under the
asserted preconditions.) -/
def unsigned_from_bytes (x : List Nat) (bit_length : Nat) : Nat :=
  let num_bytes := (bit_length + 7) / 8
  let last_byte_index := num_bytes - 1
  let shift := (8 - bit_length % 8) % 8
  unsignedLoop x last_byte_index |||
    ((x.getD last_byte_index 0) >>> shift) <<< (last_byte_index * 8)

/-- `fetch_aligned_unsigned(bit_length)`: slices `(bit_length + 7) / 8` bytes
at the aligned cursor, raises `IndexError` when the slice is short, advances
the cursor by `bit_length` and decodes with `unsigned_from_bytes`. -/
def fetch_aligned_unsigned (d : Deserializer) (bit_length : Nat) :
    Except Fault (Nat × Deserializer) :=
  let bs := (d.buf.drop d.byte_offset).take ((bit_length + 7) / 8)
  if bs.length * 8 < bit_length then
    .error .indexError
  else
    .ok (unsigned_from_bytes bs bit_length,
         { d with bit_offset := d.bit_offset + bit_length })

/-- Two's-complement reinterpretation used by both signed fetches:
`(u - 2 ** bit_length) if u >= 2 ** (bit_length - 1) else u`. -/
def toSigned (u : Nat) (bit_length : Nat) : Int :=
  if u ≥ 2 ^ (bit_length - 1) then (u : Int) - 2 ^ bit_length else (u : Int)

/-- `fetch_aligned_signed(bit_length)` (requires `bit_length >= 2`). -/
def fetch_aligned_signed (d : Deserializer) (bit_length : Nat) :
    Except Fault (Int × Deserializer) := do
  let (u, d1) ← d.fetch_aligned_unsigned bit_length
  return (toSigned u bit_length, d1)

/-- `fetch_aligned_f16/f32/f64` read 2/4/8 aligned bytes and reinterpret them
with `struct.unpack`.  The IEEE-754 reinterpretation is a bijection on bit
patterns and is not modelled; the fetched little-endian byte pattern is
returned as is. -/
def fetch_aligned_f16 (d : Deserializer) : Except Fault (List Nat × Deserializer) :=
  d.fetch_aligned_bytes 2

/-- `fetch_aligned_f32`: see `fetch_aligned_f16`. -/
def fetch_aligned_f32 (d : Deserializer) : Except Fault (List Nat × Deserializer) :=
  d.fetch_aligned_bytes 4

/-- `fetch_aligned_f64`: see `fetch_aligned_f16`. -/
def fetch_aligned_f64 (d : Deserializer) : Except Fault (List Nat × Deserializer) :=
  d.fetch_aligned_bytes 8

/-- Little-endian word value of a byte slice, as `numpy.frombuffer`
reinterprets consecutive bytes on a little-endian host. -/
def leWord (bs : List Nat) : Nat := bs.foldr (fun b acc => b + 256 * acc) 0

/-- `_LittleEndianDeserializer.fetch_aligned_array_of_standard_bit_length_primitives`:
`numpy.frombuffer(self._buf, dtype, count, offset)` raises `ValueError` when
the buffer cannot supply `count` items of `itemsize` bytes; on success the
cursor advances by `out.nbytes * 8 = itemsize * count * 8`.  The dtype is
abstracted by its item size; each item is the little-endian word of its
bytes. -/
def fetch_aligned_array_of_primitives (d : Deserializer) (itemsize count : Nat) :
    Except Fault (List Nat × Deserializer) :=
  if d.byte_offset + itemsize * count ≤ d.buf.length then
    .ok ((List.range count).map
           (fun j => leWord ((d.buf.drop (d.byte_offset + j * itemsize)).take itemsize)),
         { d with bit_offset := d.bit_offset + itemsize * count * 8 })
  else
    .error .valueError

/-- The loop of the unaligned branch of `fetch_unaligned_bytes`: starting at
bit offset `off` (with intra-byte offset `left ≠ 0`), emit `n` output bytes,
each combining the two adjacent source bytes
`((buf[off/8] << left) & 0xFF) | (buf[off/8 + 1] >> (8 - left))`, advancing
the offset by 8 per byte; an out-of-range source access raises `IndexError`.
Returns the bytes produced and the final bit offset. -/
def unalignedPreBytes (buf : List Nat) (left : Nat) :
    Nat → Nat → Except Fault (List Nat × Nat)
  | 0, off => .ok ([], off)
  | n + 1, off =>
    match buf[off / 8]?, buf[off / 8 + 1]? with
    | some a, some b => do
      let (rest, fin) ← unalignedPreBytes buf left n (off + 8)
      return ((((a <<< left) % 256) ||| (b >>> (8 - left))) :: rest, fin)
    | _, _ => .error .indexError

/-- `fetch_unaligned_bytes(count)`.  For a byte-aligned cursor it delegates to
`fetch_aligned_bytes`; otherwise it runs the unaligned copy loop for all but
the last output byte, then forms the last byte from
`(buf[off/8] << left) & 0xFF`, advances the cursor by 8, and attempts to or in
`buf[off/8] >> right` at the new cursor — an `IndexError` there is swallowed,
leaving the low bits of the last output byte zero. -/
def fetch_unaligned_bytes (d : Deserializer) (count : Nat) :
    Except Fault (List Nat × Deserializer) :=
  if 0 < count then
    if d.bit_offset % 8 ≠ 0 then
      let left := d.bit_offset % 8
      let right := 8 - left
      match unalignedPreBytes d.buf left (count - 1) d.bit_offset with
      | .error e => .error e
      | .ok (pre, off1) =>
        match d.buf[off1 / 8]? with
        | none => .error .indexError
        | some a =>
          let x0 := (a <<< left) % 256
          let off2 := off1 + 8
          let x := match d.buf[off2 / 8]? with
                   | some b => x0 ||| (b >>> right)
                   | none => x0
          .ok (pre ++ [x], { d with bit_offset := off2 })
    else
      d.fetch_aligned_bytes count
  else
    .ok ([], d)

/-- `fetch_unaligned_array_of_bits(count)`: fetches `(count + 7) / 8` whole
bytes, backtracks the cursor by the `byte_count * 8 - count` overshoot bits,
and unpacks the first `count` bits MSB-first. -/
def fetch_unaligned_array_of_bits (d : Deserializer) (count : Nat) :
    Except Fault (List Bool × Deserializer) := do
  let byte_count := (count + 7) / 8
  let (bs, d1) ← d.fetch_unaligned_bytes byte_count
  let backtrack := byte_count * 8 - count
  return ((unpackbits bs).take count, { d1 with bit_offset := d1.bit_offset - backtrack })

/-- `fetch_unaligned_unsigned(bit_length)`: fetches `(bit_length + 7) / 8`
whole bytes, backtracks the `byte_length * 8 - bit_length` overshoot bits,
and decodes with `unsigned_from_bytes`. -/
def fetch_unaligned_unsigned (d : Deserializer) (bit_length : Nat) :
    Except Fault (Nat × Deserializer) := do
  let byte_length := (bit_length + 7) / 8
  let (bs, d1) ← d.fetch_unaligned_bytes byte_length
  let backtrack := byte_length * 8 - bit_length
  return (unsigned_from_bytes bs bit_length,
          { d1 with bit_offset := d1.bit_offset - backtrack })

/-- `fetch_unaligned_signed(bit_length)` (requires `bit_length >= 2`). -/
def fetch_unaligned_signed (d : Deserializer) (bit_length : Nat) :
    Except Fault (Int × Deserializer) := do
  let (u, d1) ← d.fetch_unaligned_unsigned bit_length
  return (toSigned u bit_length, d1)

/-- `fetch_unaligned_f16`: two unaligned bytes, reinterpreted by
`struct.unpack` (byte pattern returned, see `fetch_aligned_f16`). -/
def fetch_unaligned_f16 (d : Deserializer) : Except Fault (List Nat × Deserializer) :=
  d.fetch_unaligned_bytes 2

/-- `fetch_unaligned_f32`: see `fetch_unaligned_f16`. -/
def fetch_unaligned_f32 (d : Deserializer) : Except Fault (List Nat × Deserializer) :=
  d.fetch_unaligned_bytes 4

/-- `fetch_unaligned_f64`: see `fetch_unaligned_f16`. -/
def fetch_unaligned_f64 (d : Deserializer) : Except Fault (List Nat × Deserializer) :=
  d.fetch_unaligned_bytes 8

/-- `fetch_unaligned_array_of_standard_bit_length_primitives`: fetches
`itemsize * count` unaligned bytes and reinterprets them little-endian. -/
def fetch_unaligned_array_of_primitives (d : Deserializer) (itemsize count : Nat) :
    Except Fault (List Nat × Deserializer) := do
  let (bs, d1) ← d.fetch_unaligned_bytes (itemsize * count)
  return ((List.range count).map (fun j => leWord ((bs.drop (j * itemsize)).take itemsize)),
          d1)

/-- `fetch_unaligned_bit`: tests bit `7 - offset % 8` of the byte under the
cursor (MSB-first convention) and advances by one bit. -/
def fetch_unaligned_bit (d : Deserializer) : Except Fault (Bool × Deserializer) :=
  match d.buf[d.byte_offset]? with
  | none => .error .indexError
  | some b => .ok (b.testBit (7 - d.bit_offset % 8), { d with bit_offset := d.bit_offset + 1 })

end Deserializer

/-- The contiguous region the top-level `deserialize` builds from its fragment
sequence: the sole fragment is used directly when there is exactly one,
otherwise the fragments are joined. -/
def contiguousOf (frags : List (List Nat)) : List Nat :=
  if frags.length = 1 then frags.headD [] else frags.flatten

/-- Top-level `deserialize(dtype, fragments)`.  The adapter entry point
`dtype._deserialize_aligned_` is abstracted as `decode`, applied to a fresh
`Deserializer` over the contiguous region.  A `FormatError` escaping `decode`
is converted to `none` (after an INFO log, which is not modelled); any other
fault propagates; success wraps the value in `some`. -/
def deserialize {α : Type} (decode : Deserializer → Except Fault α)
    (frags : List (List Nat)) : Except Fault (Option α) :=
  match decode { buf := contiguousOf frags, bit_offset := 0 } with
  | .ok v => .ok (some v)
  | .error .formatError => .ok none
  | .error e => .error e

/-- `ServiceObject`: the base class of generated service types.  Only the
members the claims concern are modelled: the nested `Request` and `Response`
adapter decode entry points. -/
structure ServiceObject where
  requestDecode : Deserializer → Except Fault Nat
  responseDecode : Deserializer → Except Fault Nat

/-- `ServiceObject._serialize_aligned_` raises `TypeError` (the
`NotSerializable` kind) unconditionally; the `Serializer` argument is never
inspected and is omitted. -/
def ServiceObject.serialize_aligned (_self : ServiceObject) : Except Fault Unit :=
  .error .typeError

/-- `ServiceObject._deserialize_aligned_` (a static method) raises `TypeError`
(the `NotSerializable` kind) unconditionally. -/
def ServiceObject.deserialize_aligned (_des : Deserializer) :
    Except Fault ServiceObject :=
  .error .typeError

/-- A Python object for the purposes of `get_attribute` / `set_attribute`:
a finite attribute dictionary (association list from names to values).
`getattr`/`hasattr`/`setattr` on an existing attribute operate on this
dictionary. -/
structure PyObj where
  attrs : List (String × Nat)
  deriving DecidableEq

/-- `getattr(obj, name)` as a partial lookup: the stored value when the
attribute exists. -/
def PyObj.getattr? (o : PyObj) (name : String) : Option Nat :=
  (o.attrs.find? (fun p => p.1 = name)).map (·.2)

/-- `setattr(obj, name, value)` on an existing attribute: updates the stored
value in place (never creates an attribute; `set_attribute` checks existence
with `hasattr` before calling it). -/
def PyObj.setattrExisting (o : PyObj) (name : String) (value : Nat) : PyObj :=
  { attrs := o.attrs.map (fun p => if p.1 = name then (p.1, value) else p) }

/-- `get_attribute(obj, name)`: `getattr(obj, name)`, and on `AttributeError`
`getattr(obj, name + "_")`; a second failure propagates `AttributeError`. -/
def get_attribute (o : PyObj) (name : String) : Except Fault Nat :=
  match o.getattr? name with
  | some v => .ok v
  | none =>
    match o.getattr? (name ++ "_") with
    | some v => .ok v
    | none => .error .attributeError

/-- `set_attribute(obj, name, value)`: assigns to `name` if `hasattr(obj,
name)`, else to `name + "_"` if that exists, else raises `AttributeError`
without creating anything.  The second component is the object after the
call. -/
def set_attribute (o : PyObj) (name : String) (value : Nat) :
    Except Fault Unit × PyObj :=
  if (o.getattr? name).isSome then
    (.ok (), o.setattrExisting name value)
  else if (o.getattr? (name ++ "_")).isSome then
    (.ok (), o.setattrExisting (name ++ "_") value)
  else
    (.error .attributeError, o)

/-! ## General lemmas -/

/-- Disjoint bitwise-or is addition: when `a` fits below bit `k`, or-ing in a
value shifted left by `k` is plain addition. -/
theorem lor_shiftLeft_eq_add {a : Nat} {k : Nat} (b : Nat) (h : a < 2 ^ k) :
    a ||| (b <<< k) = a + b * 2 ^ k := by
  rw [Nat.shiftLeft_eq, Nat.or_comm, Nat.mul_comm b (2 ^ k)]
  rw [← Nat.mul_add_lt_is_or h b]
  omega

/-- A right shift of a value below `2 ^ n` fits below `2 ^ (n - s)`. -/
theorem shiftRight_lt_of_lt {x s n : Nat} (hx : x < 2 ^ n) (hs : s ≤ n) :
    x >>> s < 2 ^ (n - s) := by
  rw [Nat.shiftRight_eq_div_pow]
  apply Nat.div_lt_of_lt_mul
  calc x < 2 ^ n := hx
    _ = 2 ^ (n - s) * 2 ^ s := by rw [← pow_add]; congr 1; omega
    _ = 2 ^ s * 2 ^ (n - s) := by ring

/-- Reading a `take` of a `drop` through `getD` reaches the underlying list. -/
theorem getD_take_drop (l : List Nat) (m n j : Nat) (hj : j < n) :
    ((l.drop m).take n).getD j 0 = l.getD (m + j) 0 := by
  simp [List.getD_eq_getElem?_getD, List.getElem?_take_of_lt hj, List.getElem?_drop]

/-- A successful optional indexing yields a member of the list. -/
theorem mem_of_getElem_opt {l : List Nat} {i a : Nat} (h : l[i]? = some a) :
    a ∈ l := by
  rcases List.getElem?_eq_some.mp h with ⟨hi, rfl⟩
  exact List.getElem_mem hi

/-- A right shift never increases a natural number. -/
theorem shiftRight_le_self (n k : Nat) : n >>> k ≤ n := by
  rw [Nat.shiftRight_eq_div_pow]
  exact Nat.div_le_self n (2 ^ k)

/-! ## Claim C7 -/

/-- C7: `skip_bits` moves the cursor forward by `n_bits` when
`n_bits ≤ remaining_bits`, and fails with the out-of-range kind
(`IndexError`, the spec's `Short`) — distinct from `FormatError` — when
`n_bits > remaining_bits`. -/
theorem C7_skip_bits_spec (d : Deserializer) (n : Nat) :
    (n ≤ d.remaining_bit_length →
      d.skip_bits n = (.ok (), { d with bit_offset := d.bit_offset + n }) ∧
      (d.skip_bits n).2.consumed_bit_length = d.consumed_bit_length + n) ∧
    (d.remaining_bit_length < n →
      d.skip_bits n = (.error .indexError, d) ∧
      Fault.indexError ≠ Fault.formatError) := by
  constructor
  · intro h
    have hge : d.remaining_bit_length ≥ n := h
    simp only [Deserializer.skip_bits, if_pos hge]
    exact ⟨trivial, rfl⟩
  · intro h
    have hlt : ¬d.remaining_bit_length ≥ n := by omega
    simp only [Deserializer.skip_bits, if_neg hlt]
    exact ⟨trivial, by decide⟩

/-- Witness for C7 at a two-byte buffer: an in-range skip of 8 bits advances
the cursor, an out-of-range skip of 100 bits raises the out-of-range fault. -/
theorem C7_skip_bits_witness :
    (Deserializer.mk [1, 2] 0).skip_bits 8 = (.ok (), Deserializer.mk [1, 2] 8) ∧
    (Deserializer.mk [1, 2] 0).skip_bits 100 = (.error .indexError, Deserializer.mk [1, 2] 0) :=
  ⟨((C7_skip_bits_spec (Deserializer.mk [1, 2] 0) 8).1 (by decide)).1,
   ((C7_skip_bits_spec (Deserializer.mk [1, 2] 0) 100).2 (by decide)).1⟩

/-! ## Claim C9 -/

/-- C9: a failing `skip_bits` is atomic — when `n_bits > remaining_bits` the
object after the call is exactly the object before it, so
`consumed_bit_length` and `remaining_bit_length` are unchanged. -/
theorem C9_skip_bits_atomic (d : Deserializer) (n : Nat)
    (h : d.remaining_bit_length < n) :
    (d.skip_bits n).2 = d ∧
    (d.skip_bits n).2.consumed_bit_length = d.consumed_bit_length ∧
    (d.skip_bits n).2.remaining_bit_length = d.remaining_bit_length := by
  have hlt : ¬d.remaining_bit_length ≥ n := by omega
  simp only [Deserializer.skip_bits, if_neg hlt]
  refine ⟨?_, ?_, ?_⟩ <;> trivial

/-- Witness for C9: skipping 100 bits of a two-byte buffer fails and leaves
the deserializer exactly as it was. -/
theorem C9_skip_bits_atomic_witness :
    ((Deserializer.mk [1, 2] 3).skip_bits 100).2 = Deserializer.mk [1, 2] 3 :=
  (C9_skip_bits_atomic (Deserializer.mk [1, 2] 3) 100 (by decide)).1

/-! ## Claim C5 -/

/-- C5: on every service adapter instance, the encode entry point raises the
`NotSerializable` kind (`TypeError`), the service-level decode entry point
raises the same kind, and that kind is not `FormatError`. -/
theorem C5_service_not_serializable (s : ServiceObject) (des : Deserializer) :
    s.serialize_aligned = .error .typeError ∧
    ServiceObject.deserialize_aligned des = .error .typeError ∧
    Fault.typeError ≠ Fault.formatError := by
  exact ⟨rfl, rfl, by decide⟩

/-! ## Claim C6 -/

/-- C6: `deserialize` over a fragment sequence equals `deserialize` over the
single fragment holding the concatenation of the sequence — the direct
single-fragment path and the concatenate-first path agree. -/
theorem C6_deserialize_concat {α : Type} (decode : Deserializer → Except Fault α)
    (frags : List (List Nat)) :
    deserialize decode frags = deserialize decode [frags.flatten] := by
  have h : contiguousOf frags = contiguousOf [frags.flatten] := by
    match frags with
    | [] => simp [contiguousOf]
    | [x] => simp [contiguousOf]
    | x :: y :: rest =>
      simp only [contiguousOf, List.length_cons, List.length_singleton, List.headD]
      norm_num
  unfold deserialize
  rw [h]

/-! ## Claim C1 -/

/-- C1: for every adapter decode routine and fragment sequence, a
`FormatError` escaping the adapter is converted to a `none` result at the
`deserialize` boundary (no exception escapes for invalid input), success is
wrapped in `some`, and every other fault propagates unchanged. -/
theorem C1_deserialize_error_policy {α : Type}
    (decode : Deserializer → Except Fault α) (frags : List (List Nat)) :
    (decode { buf := contiguousOf frags, bit_offset := 0 } = .error .formatError →
      deserialize decode frags = .ok none) ∧
    (∀ v, decode { buf := contiguousOf frags, bit_offset := 0 } = .ok v →
      deserialize decode frags = .ok (some v)) ∧
    (∀ e, e ≠ .formatError →
      decode { buf := contiguousOf frags, bit_offset := 0 } = .error e →
      deserialize decode frags = .error e) := by
  refine ⟨fun h => ?_, fun v h => ?_, fun e he h => ?_⟩
  · unfold deserialize
    rw [h]
  · unfold deserialize
    rw [h]
  · unfold deserialize
    rw [h]
    cases e with
    | formatError => exact absurd rfl he
    | indexError => rfl
    | typeError => rfl
    | valueError => rfl
    | attributeError => rfl

/-- Witness for C1: a decode that demands at least 8 remaining bits turns its
`FormatError` into `none` on an empty fragment sequence; a decode raising
`IndexError` propagates it through `deserialize`. -/
theorem C1_deserialize_error_policy_witness :
    deserialize (fun des => if des.remaining_bit_length < 8 then
        (.error .formatError : Except Fault Nat) else .ok 0) [] = .ok none ∧
    deserialize (fun _ => (.error .indexError : Except Fault Nat)) [[1], [2]] =
      .error .indexError :=
  ⟨(C1_deserialize_error_policy _ []).1 rfl,
   (C1_deserialize_error_policy _ [[1], [2]]).2.2 .indexError (by decide) rfl⟩

/-! ## Claim C8 -/

/-- Updating the entry of a present key makes the lookup return the new
value. -/
theorem find_map_update (n : String) (v : Nat) :
    ∀ l : List (String × Nat),
      (l.find? (fun p => p.1 = n)).isSome = true →
      (l.map (fun p => if p.1 = n then (p.1, v) else p)).find? (fun p => p.1 = n)
        = some (n, v) := by
  intro l
  induction l with
  | nil => simp [List.find?]
  | cons p t ih =>
    intro h
    by_cases hp : p.1 = n
    · rw [List.map_cons, if_pos hp,
        List.find?_cons_of_pos _ (by simpa using hp)]
      rw [hp]
    · rw [List.find?_cons_of_neg _ (by simp [hp])] at h
      rw [List.map_cons, if_neg hp, List.find?_cons_of_neg _ (by simp [hp])]
      exact ih h

/-- Updating one key leaves lookups of other keys unchanged. -/
theorem find_map_update_ne (n m : String) (v : Nat) (hnm : m ≠ n) :
    ∀ l : List (String × Nat),
      (l.map (fun p => if p.1 = n then (p.1, v) else p)).find? (fun p => p.1 = m)
        = l.find? (fun p => p.1 = m) := by
  intro l
  induction l with
  | nil => simp
  | cons p t ih =>
    by_cases hp : p.1 = n
    · have hm : ¬p.1 = m := by rw [hp]; exact fun e => hnm e.symm
      rw [List.map_cons, if_pos hp,
        List.find?_cons_of_neg _ (by simp [hm]),
        List.find?_cons_of_neg _ (by simp [hm])]
      exact ih
    · rw [List.map_cons, if_neg hp]
      by_cases hm : p.1 = m
      · rw [List.find?_cons_of_pos _ (by simpa using hm),
          List.find?_cons_of_pos _ (by simpa using hm)]
      · rw [List.find?_cons_of_neg _ (by simp [hm]),
          List.find?_cons_of_neg _ (by simp [hm])]
        exact ih

/-- C8: `get_attribute` returns the attribute under the plain name when
present, else the one under the underscore-suffixed name; `set_attribute`
assigns symmetrically (plain name first, else suffixed name); when neither
name exists, both raise the attribute-missing fault (`AttributeError`) and
`set_attribute` leaves the object unchanged — no attribute is created. -/
theorem C8_attribute_access (o : PyObj) (name : String) (v value : Nat) :
    (o.getattr? name = some v → get_attribute o name = .ok v) ∧
    (o.getattr? name = none → o.getattr? (name ++ "_") = some v →
      get_attribute o name = .ok v) ∧
    (o.getattr? name = none → o.getattr? (name ++ "_") = none →
      get_attribute o name = .error .attributeError) ∧
    ((o.getattr? name).isSome →
      set_attribute o name value = (.ok (), o.setattrExisting name value) ∧
      (o.setattrExisting name value).getattr? name = some value) ∧
    (o.getattr? name = none → (o.getattr? (name ++ "_")).isSome →
      set_attribute o name value = (.ok (), o.setattrExisting (name ++ "_") value) ∧
      (o.setattrExisting (name ++ "_") value).getattr? (name ++ "_") = some value ∧
      (o.setattrExisting (name ++ "_") value).getattr? name = none) ∧
    (o.getattr? name = none → o.getattr? (name ++ "_") = none →
      set_attribute o name value = (.error .attributeError, o)) := by
  refine ⟨fun h => ?_, fun h h2 => ?_, fun h h2 => ?_, fun h => ?_,
          fun h h2 => ?_, fun h h2 => ?_⟩
  · unfold get_attribute
    rw [h]
  · unfold get_attribute
    rw [h, h2]
  · unfold get_attribute
    rw [h, h2]
  · refine ⟨?_, ?_⟩
    · unfold set_attribute
      rw [if_pos h]
    · have hfind : (o.attrs.find? (fun p => p.1 = name)).isSome = true := by
        unfold PyObj.getattr? at h
        exact Option.isSome_map .. ▸ h
      unfold PyObj.setattrExisting PyObj.getattr?
      rw [find_map_update name value o.attrs hfind]
      rfl
  · have hno : ¬(o.getattr? name).isSome := by rw [h]; simp
    refine ⟨?_, ?_, ?_⟩
    · unfold set_attribute
      rw [if_neg hno, if_pos h2]
    · have hfind : (o.attrs.find? (fun p => p.1 = (name ++ "_"))).isSome = true := by
        unfold PyObj.getattr? at h2
        exact Option.isSome_map .. ▸ h2
      unfold PyObj.setattrExisting PyObj.getattr?
      rw [find_map_update (name ++ "_") value o.attrs hfind]
      rfl
    · have hne : name ≠ name ++ "_" := by
        intro hcontra
        have hlen : name.length = (name ++ "_").length := by rw [← hcontra]
        rw [String.length_append] at hlen
        have h1 : ("_" : String).length = 1 := rfl
        omega
      unfold PyObj.setattrExisting PyObj.getattr?
      rw [find_map_update_ne (name ++ "_") name value hne o.attrs]
      unfold PyObj.getattr? at h
      simpa using h
  · unfold set_attribute
    have hno : ¬(o.getattr? name).isSome = true := by rw [h]; simp
    have hno2 : ¬(o.getattr? (name ++ "_")).isSome = true := by rw [h2]; simp
    rw [if_neg hno, if_neg hno2]

/-- Witness for C8 on an object storing `x` and `type_`: the plain name read,
the underscore-fallback read, the missing-name fault, and the
underscore-fallback write. -/
theorem C8_attribute_access_witness :
    get_attribute (PyObj.mk [("x", 1), ("type_", 5)]) "x" = .ok 1 ∧
    get_attribute (PyObj.mk [("x", 1), ("type_", 5)]) "type" = .ok 5 ∧
    get_attribute (PyObj.mk [("x", 1), ("type_", 5)]) "def" = .error .attributeError ∧
    set_attribute (PyObj.mk [("x", 1), ("type_", 5)]) "type" 9 =
      (.ok (), PyObj.mk [("x", 1), ("type_", 9)]) ∧
    set_attribute (PyObj.mk [("x", 1), ("type_", 5)]) "def" 9 =
      (.error .attributeError, PyObj.mk [("x", 1), ("type_", 5)]) := by
  refine ⟨?_, ?_, ?_, ?_, ?_⟩
  · exact (C8_attribute_access (PyObj.mk [("x", 1), ("type_", 5)]) "x" 1 0).1 rfl
  · exact (C8_attribute_access (PyObj.mk [("x", 1), ("type_", 5)]) "type" 5 0).2.1 rfl rfl
  · exact (C8_attribute_access (PyObj.mk [("x", 1), ("type_", 5)]) "def" 0 0).2.2.1 rfl rfl
  · exact ((C8_attribute_access (PyObj.mk [("x", 1), ("type_", 5)]) "type" 0 9).2.2.2.2.1
      rfl (by rfl)).1
  · exact (C8_attribute_access (PyObj.mk [("x", 1), ("type_", 5)]) "def" 0 9).2.2.2.2.2
      rfl rfl

/-! ## Deserializer helper lemmas -/

/-- A successful run of the unaligned copy loop produces exactly `n` bytes,
lands `8 * n` bits further, and (over a well-formed buffer) produces byte
values. -/
theorem unalignedPreBytes_spec (buf : List Nat) (left : Nat) :
    ∀ n off pre fin,
      Deserializer.unalignedPreBytes buf left n off = .ok (pre, fin) →
      fin = off + 8 * n ∧ pre.length = n ∧
      ((∀ b ∈ buf, b < 256) → ∀ b ∈ pre, b < 256) := by
  intro n
  induction n with
  | zero =>
    intro off pre fin h
    simp only [Deserializer.unalignedPreBytes, Except.ok.injEq, Prod.mk.injEq] at h
    obtain ⟨h1, h2⟩ := h
    subst h1
    subst h2
    simp
  | succ n ih =>
    intro off pre fin h
    unfold Deserializer.unalignedPreBytes at h
    cases ha : buf[off / 8]? with
    | none => rw [ha] at h; exact Except.noConfusion h
    | some a =>
      cases hb : buf[off / 8 + 1]? with
      | none => rw [ha, hb] at h; exact Except.noConfusion h
      | some b =>
        rw [ha, hb] at h
        cases hrec : Deserializer.unalignedPreBytes buf left n (off + 8) with
        | error e => rw [hrec] at h; exact Except.noConfusion h
        | ok p =>
          obtain ⟨rest, fin1⟩ := p
          rw [hrec] at h
          simp only [bind, Except.bind, pure, Except.pure, Except.ok.injEq,
            Prod.mk.injEq] at h
          obtain ⟨hpre, hfin⟩ := h
          obtain ⟨h1, h2, h3⟩ := ih (off + 8) rest fin1 hrec
          subst hpre
          subst hfin
          refine ⟨by omega, by simp [h2], ?_⟩
          intro hwf c hc
          rcases List.mem_cons.mp hc with hc | hc
          · subst hc
            have hx0 : (a <<< left) % 256 < 2 ^ 8 := by
              have := Nat.mod_lt (a <<< left) (show 0 < 256 by norm_num)
              omega
            have hblt : b < 2 ^ 8 := by
              have := hwf b (mem_of_getElem_opt hb)
              omega
            have hbr : b >>> (8 - left) < 2 ^ 8 :=
              lt_of_le_of_lt (shiftRight_le_self b _) hblt
            have := Nat.or_lt_two_pow hx0 hbr
            omega
          · exact h3 hwf c hc

/-- A successful `fetch_aligned_bytes` keeps the buffer, advances the cursor
by `count * 8`, and returns `count` bytes drawn from the buffer. -/
theorem fetch_aligned_bytes_spec (d : Deserializer) (count : Nat)
    (bs : List Nat) (d' : Deserializer)
    (h : d.fetch_aligned_bytes count = .ok (bs, d')) :
    d'.buf = d.buf ∧ d'.bit_offset = d.bit_offset + count * 8 ∧
    bs.length = count ∧ (d.Wf → ∀ b ∈ bs, b < 256) := by
  simp only [Deserializer.fetch_aligned_bytes] at h
  split at h
  · rename_i hlen
    simp only [Except.ok.injEq, Prod.mk.injEq] at h
    obtain ⟨hbs, hd'⟩ := h
    subst hbs
    subst hd'
    exact ⟨rfl, rfl, hlen,
      fun hwf b hb => hwf b (List.mem_of_mem_drop (List.mem_of_mem_take hb))⟩
  · exact Except.noConfusion h

/-- A successful `fetch_unaligned_bytes` keeps the buffer, advances the
cursor by exactly `8 * count`, and returns `count` bytes; over a well-formed
buffer the returned values are bytes. -/
theorem fetch_unaligned_bytes_spec (d : Deserializer) (count : Nat)
    (bs : List Nat) (d' : Deserializer)
    (h : d.fetch_unaligned_bytes count = .ok (bs, d')) :
    d'.buf = d.buf ∧ d'.bit_offset = d.bit_offset + 8 * count ∧
    bs.length = count ∧ (d.Wf → ∀ b ∈ bs, b < 256) := by
  by_cases hc : 0 < count
  · by_cases hal : d.bit_offset % 8 ≠ 0
    · simp only [Deserializer.fetch_unaligned_bytes, if_pos hc, if_pos hal] at h
      split at h
      · exact Except.noConfusion h
      · rename_i pre off1 hloop
        obtain ⟨hfin, hlen, hbound⟩ :=
          unalignedPreBytes_spec d.buf (d.bit_offset % 8) (count - 1) d.bit_offset
            pre off1 hloop
        split at h
        · exact Except.noConfusion h
        · rename_i a hga
          simp only [Except.ok.injEq, Prod.mk.injEq] at h
          obtain ⟨hbs, hd'⟩ := h
          subst hbs
          subst hd'
          refine ⟨rfl, by simp only []; omega, by simp [hlen]; omega, ?_⟩
          intro hwf b hb
          rcases List.mem_append.mp hb with hb | hb
          · exact hbound hwf b hb
          · have hbx := List.mem_singleton.mp hb
            subst hbx
            have hx0 : (a <<< (d.bit_offset % 8)) % 256 < 2 ^ 8 := by
              have := Nat.mod_lt (a <<< (d.bit_offset % 8)) (show 0 < 256 by norm_num)
              omega
            split
            · rename_i b2 hb2
              have hb2lt : b2 < 2 ^ 8 := by
                have := hwf b2 (mem_of_getElem_opt hb2)
                omega
              have hbr : b2 >>> (8 - d.bit_offset % 8) < 2 ^ 8 :=
                lt_of_le_of_lt (shiftRight_le_self b2 _) hb2lt
              have := Nat.or_lt_two_pow hx0 hbr
              exact lt_of_lt_of_eq this (by norm_num)
            · exact Nat.mod_lt _ (by norm_num)
    · simp only [Deserializer.fetch_unaligned_bytes, if_pos hc, if_neg hal] at h
      obtain ⟨h1, h2, h3, h4⟩ := fetch_aligned_bytes_spec d count bs d' h
      exact ⟨h1, by omega, h3, h4⟩
  · simp only [Deserializer.fetch_unaligned_bytes, if_neg hc] at h
    simp only [Except.ok.injEq, Prod.mk.injEq] at h
    obtain ⟨hbs, hd'⟩ := h
    subst hbs
    subst hd'
    refine ⟨rfl, by omega, ?_, by simp⟩
    simp only [List.length_nil]
    omega

/-- A successful `fetch_aligned_unsigned` keeps the buffer, advances the
cursor by exactly `bit_length`, and returns the `Deserializer.unsigned_from_bytes`
decoding of the byte slice under the cursor. -/
theorem fetch_aligned_unsigned_spec (d : Deserializer) (L u : Nat)
    (d' : Deserializer) (h : d.fetch_aligned_unsigned L = .ok (u, d')) :
    d'.buf = d.buf ∧ d'.bit_offset = d.bit_offset + L ∧
    u = Deserializer.unsigned_from_bytes ((d.buf.drop d.byte_offset).take ((L + 7) / 8)) L ∧
    L ≤ ((d.buf.drop d.byte_offset).take ((L + 7) / 8)).length * 8 := by
  simp only [Deserializer.fetch_aligned_unsigned] at h
  split at h
  · exact Except.noConfusion h
  · rename_i hlen
    simp only [Except.ok.injEq, Prod.mk.injEq] at h
    obtain ⟨hu, hd'⟩ := h
    subst hd'
    exact ⟨rfl, rfl, hu.symm, by omega⟩

/-- A successful `fetch_unaligned_unsigned` keeps the buffer, advances the
cursor by exactly `bit_length` net of the backtrack, and decodes the bytes
produced by the inner whole-byte fetch. -/
theorem fetch_unaligned_unsigned_spec (d : Deserializer) (L u : Nat)
    (d' : Deserializer) (h : d.fetch_unaligned_unsigned L = .ok (u, d')) :
    d'.buf = d.buf ∧ d'.bit_offset = d.bit_offset + L ∧
    ∃ bs d1, d.fetch_unaligned_bytes ((L + 7) / 8) = .ok (bs, d1) ∧
      u = Deserializer.unsigned_from_bytes bs L := by
  simp only [Deserializer.fetch_unaligned_unsigned] at h
  cases hfb : d.fetch_unaligned_bytes ((L + 7) / 8) with
  | error e => rw [hfb] at h; exact Except.noConfusion h
  | ok p =>
    obtain ⟨bs, d1⟩ := p
    rw [hfb] at h
    simp only [bind, Except.bind, pure, Except.pure, Except.ok.injEq,
      Prod.mk.injEq] at h
    obtain ⟨hu, hd'⟩ := h
    obtain ⟨hbuf, hoff, hlen, -⟩ := fetch_unaligned_bytes_spec d _ bs d1 hfb
    subst hd'
    refine ⟨hbuf, ?_, bs, d1, rfl, hu.symm⟩
    simp only []
    omega

/-- A successful `fetch_aligned_signed` is the two's-complement
reinterpretation of the aligned unsigned fetch, with the same cursor
advance. -/
theorem fetch_aligned_signed_spec (d : Deserializer) (L : Nat) (s : Int)
    (d' : Deserializer) (h : d.fetch_aligned_signed L = .ok (s, d')) :
    d'.buf = d.buf ∧ d'.bit_offset = d.bit_offset + L ∧
    ∃ u, d.fetch_aligned_unsigned L = .ok (u, d') ∧ s = Deserializer.toSigned u L := by
  simp only [Deserializer.fetch_aligned_signed] at h
  cases hu : d.fetch_aligned_unsigned L with
  | error e => rw [hu] at h; exact Except.noConfusion h
  | ok p =>
    obtain ⟨u, d1⟩ := p
    rw [hu] at h
    simp only [bind, Except.bind, pure, Except.pure, Except.ok.injEq,
      Prod.mk.injEq] at h
    obtain ⟨hs, hd'⟩ := h
    subst hd'
    obtain ⟨hbuf, hoff, -, -⟩ := fetch_aligned_unsigned_spec d L u d1 hu
    exact ⟨hbuf, hoff, u, rfl, hs.symm⟩

/-- A successful `fetch_unaligned_signed` is the two's-complement
reinterpretation of the unaligned unsigned fetch, with the same cursor
advance. -/
theorem fetch_unaligned_signed_spec (d : Deserializer) (L : Nat) (s : Int)
    (d' : Deserializer) (h : d.fetch_unaligned_signed L = .ok (s, d')) :
    d'.buf = d.buf ∧ d'.bit_offset = d.bit_offset + L ∧
    ∃ u, d.fetch_unaligned_unsigned L = .ok (u, d') ∧ s = Deserializer.toSigned u L := by
  simp only [Deserializer.fetch_unaligned_signed] at h
  cases hu : d.fetch_unaligned_unsigned L with
  | error e => rw [hu] at h; exact Except.noConfusion h
  | ok p =>
    obtain ⟨u, d1⟩ := p
    rw [hu] at h
    simp only [bind, Except.bind, pure, Except.pure, Except.ok.injEq,
      Prod.mk.injEq] at h
    obtain ⟨hs, hd'⟩ := h
    subst hd'
    obtain ⟨hbuf, hoff, -⟩ := fetch_unaligned_unsigned_spec d L u d1 hu
    exact ⟨hbuf, hoff, u, rfl, hs.symm⟩

/-- A successful `fetch_unaligned_array_of_bits` advances the cursor by
exactly `count` net of the backtrack. -/
theorem fetch_unaligned_array_of_bits_offset (d : Deserializer) (count : Nat)
    (bits : List Bool) (d' : Deserializer)
    (h : d.fetch_unaligned_array_of_bits count = .ok (bits, d')) :
    d'.buf = d.buf ∧ d'.bit_offset = d.bit_offset + count := by
  simp only [Deserializer.fetch_unaligned_array_of_bits] at h
  cases hfb : d.fetch_unaligned_bytes ((count + 7) / 8) with
  | error e => rw [hfb] at h; exact Except.noConfusion h
  | ok p =>
    obtain ⟨bs, d1⟩ := p
    rw [hfb] at h
    simp only [bind, Except.bind, pure, Except.pure, Except.ok.injEq,
      Prod.mk.injEq] at h
    obtain ⟨-, hd'⟩ := h
    obtain ⟨hbuf, hoff, -, -⟩ := fetch_unaligned_bytes_spec d _ bs d1 hfb
    subst hd'
    refine ⟨hbuf, ?_⟩
    simp only []
    omega

/-- A successful `fetch_unaligned_array_of_primitives` advances the cursor by
`itemsize * count * 8`. -/
theorem fetch_unaligned_array_of_primitives_offset (d : Deserializer)
    (itemsize count : Nat) (ws : List Nat) (d' : Deserializer)
    (h : d.fetch_unaligned_array_of_primitives itemsize count = .ok (ws, d')) :
    d'.buf = d.buf ∧ d'.bit_offset = d.bit_offset + itemsize * count * 8 := by
  simp only [Deserializer.fetch_unaligned_array_of_primitives] at h
  cases hfb : d.fetch_unaligned_bytes (itemsize * count) with
  | error e => rw [hfb] at h; exact Except.noConfusion h
  | ok p =>
    obtain ⟨bs, d1⟩ := p
    rw [hfb] at h
    simp only [bind, Except.bind, pure, Except.pure, Except.ok.injEq,
      Prod.mk.injEq] at h
    obtain ⟨-, hd'⟩ := h
    obtain ⟨hbuf, hoff, -, -⟩ := fetch_unaligned_bytes_spec d _ bs d1 hfb
    subst hd'
    exact ⟨hbuf, by omega⟩

/-- The little-endian byte loop of `_unsigned_from_bytes` computes the
little-endian sum of its bytes, and fits below `2 ^ (8 · i)`. -/
theorem unsignedLoop_spec (x : List Nat) :
    ∀ i, (∀ j, j < i → x.getD j 0 < 256) →
      Deserializer.unsignedLoop x i =
        ∑ j ∈ Finset.range i, x.getD j 0 * 2 ^ (8 * j) ∧
      Deserializer.unsignedLoop x i < 2 ^ (8 * i) := by
  intro i
  induction i with
  | zero =>
    intro _
    exact ⟨by simp [Deserializer.unsignedLoop], by simp [Deserializer.unsignedLoop]⟩
  | succ i ih =>
    intro hb
    obtain ⟨hsum, hlt⟩ := ih (fun j hj => hb j (by omega))
    have key : Deserializer.unsignedLoop x (i + 1)
        = Deserializer.unsignedLoop x i + x.getD i 0 * 2 ^ (8 * i) := by
      show Deserializer.unsignedLoop x i ||| (x.getD i 0) <<< (i * 8) = _
      rw [show i * 8 = 8 * i by omega]
      exact lor_shiftLeft_eq_add _ hlt
    constructor
    · rw [key, hsum, Finset.sum_range_succ]
    · rw [key]
      have hxi : x.getD i 0 ≤ 255 := by
        have := hb i (by omega)
        omega
      have h1 : x.getD i 0 * 2 ^ (8 * i) ≤ 255 * 2 ^ (8 * i) :=
        Nat.mul_le_mul_right _ hxi
      have h2 : 2 ^ (8 * (i + 1)) = 256 * 2 ^ (8 * i) := by
        rw [show 8 * (i + 1) = 8 + 8 * i by omega, pow_add]
        norm_num
      omega

/-- `_unsigned_from_bytes` equals the specified little-endian reconstruction
(whole bytes shifted by `8 · j`, final byte right-justified by the padding
shift) and always lies below `2 ^ bit_length`. -/
theorem unsigned_from_bytes_spec (x : List Nat) (L : Nat) (hL : 1 ≤ L)
    (hlen : (L + 7) / 8 ≤ x.length) (hx : ∀ b ∈ x, b < 256) :
    Deserializer.unsigned_from_bytes x L =
      (∑ j ∈ Finset.range ((L + 7) / 8 - 1), x.getD j 0 * 2 ^ (8 * j)) +
        (x.getD ((L + 7) / 8 - 1) 0 / 2 ^ ((8 - L % 8) % 8))
          * 2 ^ (8 * ((L + 7) / 8 - 1)) ∧
    Deserializer.unsigned_from_bytes x L < 2 ^ L := by
  have hgetD : ∀ j, j < (L + 7) / 8 → x.getD j 0 < 256 := by
    intro j hj
    have hjx : j < x.length := by omega
    rw [List.getD_eq_getElem?_getD, List.getElem?_eq_getElem hjx]
    simpa using hx _ (List.getElem_mem hjx)
  obtain ⟨hsum, hlt⟩ :=
    unsignedLoop_spec x ((L + 7) / 8 - 1) (fun j hj => hgetD j (by omega))
  have hxlast : x.getD ((L + 7) / 8 - 1) 0 < 2 ^ 8 := by
    have := hgetD ((L + 7) / 8 - 1) (by omega)
    omega
  have ht : x.getD ((L + 7) / 8 - 1) 0 >>> ((8 - L % 8) % 8)
      < 2 ^ (8 - (8 - L % 8) % 8) :=
    shiftRight_lt_of_lt hxlast (by omega)
  have key : Deserializer.unsigned_from_bytes x L
      = Deserializer.unsignedLoop x ((L + 7) / 8 - 1) +
        (x.getD ((L + 7) / 8 - 1) 0 >>> ((8 - L % 8) % 8))
          * 2 ^ (8 * ((L + 7) / 8 - 1)) := by
    show Deserializer.unsignedLoop x ((L + 7) / 8 - 1) |||
        (x.getD ((L + 7) / 8 - 1) 0 >>> ((8 - L % 8) % 8))
          <<< (((L + 7) / 8 - 1) * 8) = _
    rw [show ((L + 7) / 8 - 1) * 8 = 8 * ((L + 7) / 8 - 1) by omega]
    exact lor_shiftLeft_eq_add _ hlt
  constructor
  · rw [key, hsum, Nat.shiftRight_eq_div_pow]
  · rw [key]
    have hexp : (8 - (8 - L % 8) % 8) + 8 * ((L + 7) / 8 - 1) = L := by omega
    have h1 : (x.getD ((L + 7) / 8 - 1) 0 >>> ((8 - L % 8) % 8))
          * 2 ^ (8 * ((L + 7) / 8 - 1))
        ≤ (2 ^ (8 - (8 - L % 8) % 8) - 1) * 2 ^ (8 * ((L + 7) / 8 - 1)) :=
      Nat.mul_le_mul_right _ (by omega)
    have h2 : (2 ^ (8 - (8 - L % 8) % 8) - 1) * 2 ^ (8 * ((L + 7) / 8 - 1))
        = 2 ^ ((8 - (8 - L % 8) % 8) + 8 * ((L + 7) / 8 - 1))
          - 2 ^ (8 * ((L + 7) / 8 - 1)) := by
      rw [pow_add, Nat.sub_mul, one_mul]
    have h3 : 2 ^ (8 * ((L + 7) / 8 - 1))
        ≤ 2 ^ ((8 - (8 - L % 8) % 8) + 8 * ((L + 7) / 8 - 1)) :=
      Nat.pow_le_pow_right (by norm_num) (by omega)
    rw [hexp] at h2 h3
    omega

/-- The two's-complement reinterpretation of a `bit_length`-bit unsigned
value lies in the signed range of that width. -/
theorem toSigned_range (u L : Nat) (hu : u < 2 ^ L) (hL : 1 ≤ L) :
    -(2 ^ (L - 1) : Int) ≤ Deserializer.toSigned u L ∧
    Deserializer.toSigned u L < 2 ^ (L - 1) := by
  have h2 : (2 : Int) ^ L = 2 * 2 ^ (L - 1) := by
    rw [← pow_succ']
    congr 1
    omega
  have huI : (u : Int) < 2 ^ L := by exact_mod_cast hu
  have hnn : (0 : Int) ≤ (u : Int) := Int.ofNat_nonneg u
  have hpos : (0 : Int) < 2 ^ (L - 1) := by positivity
  unfold Deserializer.toSigned
  split
  · rename_i hge
    have hgeI : ((2 : Int) ^ (L - 1)) ≤ (u : Int) := by exact_mod_cast hge
    constructor
    · linarith
    · linarith
  · rename_i hge
    have hltI : (u : Int) < 2 ^ (L - 1) := by
      have := Nat.lt_of_not_le hge
      exact_mod_cast this
    exact ⟨by linarith, hltI⟩

/-- Over a well-formed buffer, an aligned unsigned fetch is below
`2 ^ bit_length`. -/
theorem fetch_aligned_unsigned_lt (d : Deserializer) (L u : Nat)
    (d' : Deserializer) (hwf : d.Wf) (hL : 1 ≤ L)
    (h : d.fetch_aligned_unsigned L = .ok (u, d')) : u < 2 ^ L := by
  obtain ⟨-, -, hval, hlen8⟩ := fetch_aligned_unsigned_spec d L u d' h
  have hxmem : ∀ b ∈ (d.buf.drop d.byte_offset).take ((L + 7) / 8), b < 256 :=
    fun b hb => hwf b (List.mem_of_mem_drop (List.mem_of_mem_take hb))
  obtain ⟨-, hbound⟩ :=
    unsigned_from_bytes_spec ((d.buf.drop d.byte_offset).take ((L + 7) / 8)) L hL
      (by omega) hxmem
  exact hval ▸ hbound

/-- Over a well-formed buffer, an unaligned unsigned fetch is below
`2 ^ bit_length`. -/
theorem fetch_unaligned_unsigned_lt (d : Deserializer) (L u : Nat)
    (d' : Deserializer) (hwf : d.Wf) (hL : 1 ≤ L)
    (h : d.fetch_unaligned_unsigned L = .ok (u, d')) : u < 2 ^ L := by
  obtain ⟨-, -, bs, d1, hfb, hval⟩ := fetch_unaligned_unsigned_spec d L u d' h
  obtain ⟨-, -, hlen, hbnd⟩ := fetch_unaligned_bytes_spec d _ bs d1 hfb
  obtain ⟨-, hbound⟩ := unsigned_from_bytes_spec bs L hL (by omega) (hbnd hwf)
  exact hval ▸ hbound

/-- A left shift reduced modulo 256 has zeros in its low `k` bits. -/
theorem shiftLeft_mod256_low_zero (a k : Nat) (hk : k ≤ 8) :
    ((a <<< k) % 256) % 2 ^ k = 0 := by
  have h8 : (256 : Nat) = 2 ^ 8 := by norm_num
  rw [h8]
  have hdvd : 2 ^ k ∣ (a <<< k) % 2 ^ 8 := by
    rw [Nat.dvd_mod_iff (pow_dvd_pow 2 hk), Nat.shiftLeft_eq]
    exact dvd_mul_left (2 ^ k) a
  exact Nat.mod_eq_zero_of_dvd hdvd

/-- When all its source accesses are in range, the unaligned copy loop
succeeds and lands `8 · n` bits further. -/
theorem unalignedPreBytes_ok_of_lt (buf : List Nat) (left : Nat) :
    ∀ n off, off + 8 * n < 8 * buf.length →
      ∃ pre, Deserializer.unalignedPreBytes buf left n off =
        .ok (pre, off + 8 * n) := by
  intro n
  induction n with
  | zero =>
    intro off h
    exact ⟨[], by simp [Deserializer.unalignedPreBytes]⟩
  | succ n ih =>
    intro off h
    have h1 : off / 8 < buf.length := by omega
    have h2 : off / 8 + 1 < buf.length := by omega
    have ha : buf[off / 8]? = some buf[off / 8] := List.getElem?_eq_getElem h1
    have hb : buf[off / 8 + 1]? = some buf[off / 8 + 1] :=
      List.getElem?_eq_getElem h2
    obtain ⟨pre, hpre⟩ := ih (off + 8) (by omega)
    refine ⟨((buf[off / 8] <<< left) % 256 ||| (buf[off / 8 + 1] >>> (8 - left)))
        :: pre, ?_⟩
    unfold Deserializer.unalignedPreBytes
    simp only [ha, hb, hpre, bind, Except.bind, pure, Except.pure]
    rw [show off + 8 + 8 * n = off + 8 * (n + 1) by omega]

/-! ## Claim C2 -/

/-- C2: an unaligned byte read of `count ≥ 1` bytes at a non-byte-aligned
cursor succeeds whenever the caller's validated bit demand (some bit count
whose byte ceiling is `count`, hence at least `8 · count − 7` bits) is within
`remaining_bit_length` — even when the final source byte lies past the end of
the buffer by fewer than eight bits — advancing the cursor by `8 · count`; no
out-of-range fault escapes, and when that final byte is absent it contributes
zero to the low bits of the last output byte. -/
theorem C2_fetch_unaligned_bytes_end (d : Deserializer) (count : Nat)
    (hc : 1 ≤ count) (hun : d.bit_offset % 8 ≠ 0)
    (hdem : 8 * count ≤ d.remaining_bit_length + 7) :
    ∃ bs, d.fetch_unaligned_bytes count =
        .ok (bs, { d with bit_offset := d.bit_offset + 8 * count }) ∧
      bs.length = count ∧
      (8 * d.buf.length < d.bit_offset + 8 * count →
        ∀ y, bs.getLast? = some y → y % 2 ^ (d.bit_offset % 8) = 0) := by
  have hrem : 8 * count ≤ (8 * d.buf.length - d.bit_offset) + 7 := hdem
  have hloopcond : d.bit_offset + 8 * (count - 1) < 8 * d.buf.length := by omega
  obtain ⟨pre, hpre⟩ := unalignedPreBytes_ok_of_lt d.buf (d.bit_offset % 8)
    (count - 1) d.bit_offset hloopcond
  obtain ⟨-, hlen, -⟩ := unalignedPreBytes_spec d.buf (d.bit_offset % 8)
    (count - 1) d.bit_offset pre _ hpre
  have h1 : (d.bit_offset + 8 * (count - 1)) / 8 < d.buf.length := by omega
  have ha : d.buf[(d.bit_offset + 8 * (count - 1)) / 8]?
      = some d.buf[(d.bit_offset + 8 * (count - 1)) / 8] :=
    List.getElem?_eq_getElem h1
  simp only [Deserializer.fetch_unaligned_bytes, if_pos (by omega : 0 < count),
    if_pos hun, hpre, ha]
  rw [show d.bit_offset + 8 * (count - 1) + 8 = d.bit_offset + 8 * count from
    by omega]
  cases hb2 : d.buf[(d.bit_offset + 8 * count) / 8]? with
  | some b =>
    simp only [hb2]
    refine ⟨pre ++ [(d.buf[(d.bit_offset + 8 * (count - 1)) / 8] <<<
        (d.bit_offset % 8)) % 256 ||| b >>> (8 - d.bit_offset % 8)],
      rfl, by simp [hlen]; omega, ?_⟩
    intro hov y hy
    exfalso
    have hge : d.buf.length ≤ (d.bit_offset + 8 * count) / 8 := by omega
    rw [List.getElem?_eq_none hge] at hb2
    exact Option.noConfusion hb2
  | none =>
    simp only [hb2]
    refine ⟨pre ++ [(d.buf[(d.bit_offset + 8 * (count - 1)) / 8] <<<
        (d.bit_offset % 8)) % 256], rfl, by simp [hlen]; omega, ?_⟩
    intro hov y hy
    rw [List.getLast?_concat] at hy
    have hxy : (d.buf[(d.bit_offset + 8 * (count - 1)) / 8] <<<
        (d.bit_offset % 8)) % 256 = y := by
      injection hy
    rw [← hxy]
    exact shiftLeft_mod256_low_zero _ _ (by omega)

/-- Witness for C2 at the end of a two-byte buffer: reading 2 unaligned
bytes at bit offset 3 (13 bits remain, demand up to 16 ≤ 13 + 7) succeeds,
and the absent final source byte leaves the low 3 bits of the last output
byte zero. -/
theorem C2_fetch_unaligned_bytes_end_witness :
    ∃ bs, (Deserializer.mk [170, 93] 3).fetch_unaligned_bytes 2 =
        .ok (bs, Deserializer.mk [170, 93] 19) ∧ bs.length = 2 ∧
      (8 * 2 < 3 + 8 * 2 → ∀ y, bs.getLast? = some y → y % 2 ^ (3 % 8) = 0) :=
  C2_fetch_unaligned_bytes_end (Deserializer.mk [170, 93] 3) 2
    (by norm_num) (by decide) (by decide)

/-! ## Claim C3 -/

/-- C3: at a byte-aligned cursor with at least `bit_length ≥ 1` bits
remaining, the aligned non-standard-width unsigned read succeeds, returns the
integer reconstructed from `⌈bit_length/8⌉` bytes — every whole byte except
the last contributing its full eight bits little-endian (byte `j` shifted
left by `8 · j`), the final byte contributing its high `bit_length mod 8`
bits shifted right to justify — the cursor advances by `bit_length`, and the
result is always in `[0, 2 ^ bit_length)`. -/
theorem C3_fetch_aligned_unsigned_value (d : Deserializer) (L : Nat)
    (hwf : d.Wf) (hL : 1 ≤ L) (hal : d.bit_offset % 8 = 0)
    (hrem : L ≤ d.remaining_bit_length) :
    d.fetch_aligned_unsigned L =
      .ok ((∑ j ∈ Finset.range ((L + 7) / 8 - 1),
              d.buf.getD (d.byte_offset + j) 0 * 2 ^ (8 * j)) +
           (d.buf.getD (d.byte_offset + ((L + 7) / 8 - 1)) 0
              / 2 ^ ((8 - L % 8) % 8)) * 2 ^ (8 * ((L + 7) / 8 - 1)),
           { d with bit_offset := d.bit_offset + L }) ∧
    (∀ u d', d.fetch_aligned_unsigned L = .ok (u, d') → u < 2 ^ L) := by
  have hr : L ≤ 8 * d.buf.length - d.bit_offset := hrem
  have hbo : d.byte_offset = d.bit_offset / 8 := rfl
  have hlenbs : ((d.buf.drop d.byte_offset).take ((L + 7) / 8)).length
      = (L + 7) / 8 := by
    rw [List.length_take, List.length_drop, hbo]
    omega
  have hxmem : ∀ b ∈ (d.buf.drop d.byte_offset).take ((L + 7) / 8), b < 256 :=
    fun b hb => hwf b (List.mem_of_mem_drop (List.mem_of_mem_take hb))
  obtain ⟨hval, hbound⟩ :=
    unsigned_from_bytes_spec ((d.buf.drop d.byte_offset).take ((L + 7) / 8)) L hL
      (by omega) hxmem
  have hnot : ¬((d.buf.drop d.byte_offset).take ((L + 7) / 8)).length * 8 < L := by
    rw [hlenbs]
    omega
  have hfetch : d.fetch_aligned_unsigned L =
      .ok (Deserializer.unsigned_from_bytes
             ((d.buf.drop d.byte_offset).take ((L + 7) / 8)) L,
           { d with bit_offset := d.bit_offset + L }) := by
    simp only [Deserializer.fetch_aligned_unsigned]
    rw [if_neg hnot]
  have hgd : ∀ j, j < (L + 7) / 8 →
      ((d.buf.drop d.byte_offset).take ((L + 7) / 8)).getD j 0
        = d.buf.getD (d.byte_offset + j) 0 :=
    fun j hj => getD_take_drop d.buf d.byte_offset ((L + 7) / 8) j hj
  have hsum_eq : (∑ j ∈ Finset.range ((L + 7) / 8 - 1),
        ((d.buf.drop d.byte_offset).take ((L + 7) / 8)).getD j 0 * 2 ^ (8 * j))
      = ∑ j ∈ Finset.range ((L + 7) / 8 - 1),
          d.buf.getD (d.byte_offset + j) 0 * 2 ^ (8 * j) :=
    Finset.sum_congr rfl (fun j hj => by
      rw [hgd j (by have := Finset.mem_range.mp hj; omega)])
  have hlast_eq : ((d.buf.drop d.byte_offset).take ((L + 7) / 8)).getD
        ((L + 7) / 8 - 1) 0
      = d.buf.getD (d.byte_offset + ((L + 7) / 8 - 1)) 0 :=
    hgd _ (by omega)
  constructor
  · rw [hfetch, hval, hsum_eq, hlast_eq]
  · intro u d' h
    rw [hfetch] at h
    simp only [Except.ok.injEq, Prod.mk.injEq] at h
    obtain ⟨hu, -⟩ := h
    exact hu ▸ hbound

/-- Witness for C3: reading `u12` from the byte pair `DA E0` of the unit
test yields `0xEDA = 3802`, advancing the cursor to 12. -/
theorem C3_fetch_aligned_unsigned_value_witness :
    (Deserializer.mk [218, 224] 0).fetch_aligned_unsigned 12 =
      .ok (3802, Deserializer.mk [218, 224] 12) ∧ 3802 < 2 ^ 12 := by
  have h := C3_fetch_aligned_unsigned_value (Deserializer.mk [218, 224] 0) 12
    (by unfold Deserializer.Wf; decide) (by norm_num) rfl (by decide)
  refine ⟨?_, by norm_num⟩
  rw [h.1]
  have hv : (∑ j ∈ Finset.range ((12 + 7) / 8 - 1),
        (Deserializer.mk [218, 224] 0).buf.getD
          ((Deserializer.mk [218, 224] 0).byte_offset + j) 0 * 2 ^ (8 * j)) +
      ((Deserializer.mk [218, 224] 0).buf.getD
          ((Deserializer.mk [218, 224] 0).byte_offset + ((12 + 7) / 8 - 1)) 0
        / 2 ^ ((8 - 12 % 8) % 8)) * 2 ^ (8 * ((12 + 7) / 8 - 1)) = 3802 := by
    simp [Finset.sum_range_one, Deserializer.byte_offset]
  rw [hv]

/-! ## Claim C10 -/

/-- C10: over a well-formed buffer, every successful unsigned fetch (aligned
or unaligned) of `bit_length ≥ 1` bits returns a value in
`[0, 2 ^ bit_length)`; every successful signed fetch of `bit_length ≥ 2`
bits is the two's-complement reinterpretation of the corresponding unsigned
fetch and lies in `[-2 ^ (bit_length - 1), 2 ^ (bit_length - 1))`. -/
theorem C10_fetch_value_ranges (d : Deserializer) (L : Nat)
    (hwf : d.Wf) (hL : 1 ≤ L) :
    (∀ u d', d.fetch_aligned_unsigned L = .ok (u, d') → u < 2 ^ L) ∧
    (∀ u d', d.fetch_unaligned_unsigned L = .ok (u, d') → u < 2 ^ L) ∧
    (2 ≤ L → ∀ s d', d.fetch_aligned_signed L = .ok (s, d') →
      -(2 ^ (L - 1) : Int) ≤ s ∧ s < 2 ^ (L - 1) ∧
      ∃ u, d.fetch_aligned_unsigned L = .ok (u, d') ∧
        s = Deserializer.toSigned u L) ∧
    (2 ≤ L → ∀ s d', d.fetch_unaligned_signed L = .ok (s, d') →
      -(2 ^ (L - 1) : Int) ≤ s ∧ s < 2 ^ (L - 1) ∧
      ∃ u, d.fetch_unaligned_unsigned L = .ok (u, d') ∧
        s = Deserializer.toSigned u L) := by
  refine ⟨fun u d' h => fetch_aligned_unsigned_lt d L u d' hwf hL h,
          fun u d' h => fetch_unaligned_unsigned_lt d L u d' hwf hL h,
          fun hL2 s d' h => ?_, fun hL2 s d' h => ?_⟩
  · obtain ⟨-, -, u, hu, hs⟩ := fetch_aligned_signed_spec d L s d' h
    have hub := fetch_aligned_unsigned_lt d L u d' hwf hL hu
    obtain ⟨h1, h2⟩ := toSigned_range u L hub hL
    exact ⟨hs ▸ h1, hs ▸ h2, u, hu, hs⟩
  · obtain ⟨-, -, u, hu, hs⟩ := fetch_unaligned_signed_spec d L s d' h
    have hub := fetch_unaligned_unsigned_lt d L u d' hwf hL hu
    obtain ⟨h1, h2⟩ := toSigned_range u L hub hL
    exact ⟨hs ▸ h1, hs ▸ h2, u, hu, hs⟩

/-- Witness for C10: the `i9` read of the unit test (`FE 80`) yields `-2`,
inside `[-2^8, 2^8)`, as the two's-complement reinterpretation of the
unsigned value 510; and the `u12` read (`DA E0`) yields 3802 < 2^12. -/
theorem C10_fetch_value_ranges_witness :
    (-(2 ^ 8 : Int) ≤ (-2 : Int) ∧ ((-2 : Int) < 2 ^ 8) ∧ ∃ u,
      (Deserializer.mk [254, 128] 0).fetch_aligned_unsigned 9 = .ok (u, Deserializer.mk [254, 128] 9) ∧
      (-2 : Int) = Deserializer.toSigned u 9) ∧ (3802 : Nat) < 2 ^ 12 := by
  constructor
  · exact (C10_fetch_value_ranges (Deserializer.mk [254, 128] 0) 9
      (by unfold Deserializer.Wf; decide) (by norm_num)).2.2.1 (by norm_num) (-2)
      (Deserializer.mk [254, 128] 9) rfl
  · exact (C10_fetch_value_ranges (Deserializer.mk [218, 224] 0) 12
      (by unfold Deserializer.Wf; decide) (by norm_num)).1 3802
      (Deserializer.mk [218, 224] 12) rfl

/-! ## Claim C4 -/

/-- C4: every successful fetch of a value occupying `L` bits advances the
cursor (`consumed_bit_length`) by exactly `L` — for the unaligned bit
(`L = 1`), the aligned and unaligned unsigned and signed integers
(`L = bit_length`, including the overshoot-and-backtrack unaligned paths),
byte arrays (`L = 8 · count`), bit arrays (`L = count`, including the
backtracking unaligned path), floats (`L = 16/32/64`), and arrays of
standard-bit-length primitives (`L = 8 · itemsize · count`). -/
theorem C4_cursor_advance (d : Deserializer) (bit_length itemsize count : Nat) :
    (∀ b d', d.fetch_unaligned_bit = .ok (b, d') →
      d'.consumed_bit_length = d.consumed_bit_length + 1) ∧
    (∀ u d', d.fetch_aligned_unsigned bit_length = .ok (u, d') →
      d'.consumed_bit_length = d.consumed_bit_length + bit_length) ∧
    (∀ u d', d.fetch_unaligned_unsigned bit_length = .ok (u, d') →
      d'.consumed_bit_length = d.consumed_bit_length + bit_length) ∧
    (∀ s d', d.fetch_aligned_signed bit_length = .ok (s, d') →
      d'.consumed_bit_length = d.consumed_bit_length + bit_length) ∧
    (∀ s d', d.fetch_unaligned_signed bit_length = .ok (s, d') →
      d'.consumed_bit_length = d.consumed_bit_length + bit_length) ∧
    (∀ bs d', d.fetch_aligned_bytes count = .ok (bs, d') →
      d'.consumed_bit_length = d.consumed_bit_length + 8 * count) ∧
    (∀ bs d', d.fetch_unaligned_bytes count = .ok (bs, d') →
      d'.consumed_bit_length = d.consumed_bit_length + 8 * count) ∧
    (∀ bits d', d.fetch_aligned_array_of_bits count = .ok (bits, d') →
      d'.consumed_bit_length = d.consumed_bit_length + count) ∧
    (∀ bits d', d.fetch_unaligned_array_of_bits count = .ok (bits, d') →
      d'.consumed_bit_length = d.consumed_bit_length + count) ∧
    (∀ bs d', d.fetch_aligned_f16 = .ok (bs, d') →
      d'.consumed_bit_length = d.consumed_bit_length + 16) ∧
    (∀ bs d', d.fetch_aligned_f32 = .ok (bs, d') →
      d'.consumed_bit_length = d.consumed_bit_length + 32) ∧
    (∀ bs d', d.fetch_aligned_f64 = .ok (bs, d') →
      d'.consumed_bit_length = d.consumed_bit_length + 64) ∧
    (∀ bs d', d.fetch_unaligned_f16 = .ok (bs, d') →
      d'.consumed_bit_length = d.consumed_bit_length + 16) ∧
    (∀ bs d', d.fetch_unaligned_f32 = .ok (bs, d') →
      d'.consumed_bit_length = d.consumed_bit_length + 32) ∧
    (∀ bs d', d.fetch_unaligned_f64 = .ok (bs, d') →
      d'.consumed_bit_length = d.consumed_bit_length + 64) ∧
    (∀ ws d', d.fetch_aligned_array_of_primitives itemsize count = .ok (ws, d') →
      d'.consumed_bit_length = d.consumed_bit_length + 8 * (itemsize * count)) ∧
    (∀ ws d', d.fetch_unaligned_array_of_primitives itemsize count = .ok (ws, d') →
      d'.consumed_bit_length = d.consumed_bit_length + 8 * (itemsize * count)) := by
  simp only [Deserializer.consumed_bit_length]
  refine ⟨?_, ?_, ?_, ?_, ?_, ?_, ?_, ?_, ?_, ?_, ?_, ?_, ?_, ?_, ?_, ?_, ?_⟩
  · intro b d' h
    simp only [Deserializer.fetch_unaligned_bit] at h
    split at h
    · exact Except.noConfusion h
    · simp only [Except.ok.injEq, Prod.mk.injEq] at h
      obtain ⟨-, hd'⟩ := h
      subst hd'
      rfl
  · intro u d' h
    exact (fetch_aligned_unsigned_spec d bit_length u d' h).2.1
  · intro u d' h
    exact (fetch_unaligned_unsigned_spec d bit_length u d' h).2.1
  · intro s d' h
    exact (fetch_aligned_signed_spec d bit_length s d' h).2.1
  · intro s d' h
    exact (fetch_unaligned_signed_spec d bit_length s d' h).2.1
  · intro bs d' h
    have := (fetch_aligned_bytes_spec d count bs d' h).2.1
    omega
  · intro bs d' h
    exact (fetch_unaligned_bytes_spec d count bs d' h).2.1
  · intro bits d' h
    simp only [Deserializer.fetch_aligned_array_of_bits] at h
    split at h
    · simp only [Except.ok.injEq, Prod.mk.injEq] at h
      obtain ⟨-, hd'⟩ := h
      subst hd'
      rfl
    · exact Except.noConfusion h
  · intro bits d' h
    exact (fetch_unaligned_array_of_bits_offset d count bits d' h).2
  · intro bs d' h
    have h2 : d.fetch_aligned_bytes 2 = .ok (bs, d') := h
    have := (fetch_aligned_bytes_spec d 2 bs d' h2).2.1
    omega
  · intro bs d' h
    have h2 : d.fetch_aligned_bytes 4 = .ok (bs, d') := h
    have := (fetch_aligned_bytes_spec d 4 bs d' h2).2.1
    omega
  · intro bs d' h
    have h2 : d.fetch_aligned_bytes 8 = .ok (bs, d') := h
    have := (fetch_aligned_bytes_spec d 8 bs d' h2).2.1
    omega
  · intro bs d' h
    have h2 : d.fetch_unaligned_bytes 2 = .ok (bs, d') := h
    have := (fetch_unaligned_bytes_spec d 2 bs d' h2).2.1
    omega
  · intro bs d' h
    have h2 : d.fetch_unaligned_bytes 4 = .ok (bs, d') := h
    have := (fetch_unaligned_bytes_spec d 4 bs d' h2).2.1
    omega
  · intro bs d' h
    have h2 : d.fetch_unaligned_bytes 8 = .ok (bs, d') := h
    have := (fetch_unaligned_bytes_spec d 8 bs d' h2).2.1
    omega
  · intro ws d' h
    simp only [Deserializer.fetch_aligned_array_of_primitives] at h
    split at h
    · simp only [Except.ok.injEq, Prod.mk.injEq] at h
      obtain ⟨-, hd'⟩ := h
      subst hd'
      simp only []
      omega
    · exact Except.noConfusion h
  · intro ws d' h
    have := (fetch_unaligned_array_of_primitives_offset d itemsize count ws d' h).2
    omega

/-- Witness for C4 at the unaligned read of the unit test: two unaligned
bytes read at bit offset 3 of a four-byte buffer advance the cursor from 3
to 19 = 3 + 8·2. -/
theorem C4_cursor_advance_witness :
    (Deserializer.mk [170, 93, 204, 145] 19).consumed_bit_length =
      (Deserializer.mk [170, 93, 204, 145] 3).consumed_bit_length + 8 * 2 :=
  (C4_cursor_advance (Deserializer.mk [170, 93, 204, 145] 3) 0 0 2).2.2.2.2.2.2.1
    [82, 238] (Deserializer.mk [170, 93, 204, 145] 19) rfl

end PyUAVCAN
